import Mathlib

/-!
Shallow embedding of the feed-forward classifier inference path from the
notebook "Part 2 - Neural Networks in PyTorch (Exercises)": the two concrete
`Network` classes (the module-object style and the `torch.nn.functional`
style), and the spec-level softmax normalizer and configurable feed-forward
network (the notebook leaves the `softmax` body and the configurable-network
exercise cell unimplemented, so those are modelled from the spec).
Matrices are lists of rows of real numbers; a batch of shape (N, F) is a
list of N rows, each of length F.
-/

/-- A matrix: a list of rows of real numbers. -/
abbrev Mat := List (List ℝ)

/-- Elementwise logistic sigmoid: `1 / (1 + e^(-x))`. -/
noncomputable def sigmoid (x : ℝ) : ℝ := 1 / (1 + Real.exp (-x))

/-- Maximum of a list of reals by left fold; `maxD [] = 0` (the normalizer
only uses it on nonempty rows). -/
noncomputable def maxD : List ℝ → ℝ
  | [] => 0
  | a :: l => l.foldl max a

/-- Row of exponentials after subtracting the row maximum:
entry k is `e^(x k - m)` with `m` the row maximum. -/
noncomputable def expRow (r : List ℝ) : List ℝ :=
  r.map (fun v => Real.exp (v - maxD r))

/-- One row of the numerically-stable softmax: subtract the row maximum,
exponentiate, and divide each entry by the row sum of exponentials. -/
noncomputable def softmaxRow (r : List ℝ) : List ℝ :=
  (expRow r).map (fun v => v / (expRow r).sum)

/-- Parameters of `nn.Linear(inF, outF)`: `weight` holds one row per output
unit (each of length inF), `bias` one entry per output unit; the layer
computes `y = x Wᵀ + b`. -/
structure LinearLayer where
  weight : Mat
  bias : List ℝ

/-- Dot product of two real vectors. -/
noncomputable def dotp (a b : List ℝ) : ℝ :=
  (List.zipWith (fun x y => x * y) a b).sum

/-- Application of an `nn.Linear` layer to a batch: output entry j of a row
is the dot product of the row with weight row j, plus `bias` entry j. -/
noncomputable def linearApply (l : LinearLayer) (x : Mat) : Mat :=
  x.map (fun row => List.zipWith (fun w b => dotp row w + b) l.weight l.bias)

/-- The `nn.Sigmoid()` module object stored in `self.sigmoid`:
elementwise sigmoid. -/
noncomputable def nnSigmoid (x : Mat) : Mat := x.map (List.map sigmoid)

/-- The `nn.Softmax(dim=1)` module object stored in `self.softmax`:
softmax across each row (dim 1). -/
noncomputable def nnSoftmax1 (x : Mat) : Mat := x.map softmaxRow

/-- `F.sigmoid`: elementwise sigmoid. -/
noncomputable def fSigmoid (x : Mat) : Mat := x.map (List.map sigmoid)

/-- `F.softmax(-, dim=1)`: softmax across each row. -/
noncomputable def fSoftmax1 (x : Mat) : Mat := x.map softmaxRow

/-- The first `Network` class of the notebook: `self.hidden = nn.Linear(784,
256)`, `self.output = nn.Linear(256, 10)`, plus the parameter-free
`nn.Sigmoid` and `nn.Softmax(dim=1)` module objects. Only the learnable
parameters are state. -/
structure Network where
  hidden : LinearLayer
  output : LinearLayer

/-- Forward of the first `Network` class, exactly in the source's order:
`x = self.hidden(x); x = self.sigmoid(x); x = self.output(x);
x = self.softmax(x); return x`. -/
noncomputable def Network.forward (net : Network) (x : Mat) : Mat :=
  let x1 := linearApply net.hidden x
  let x2 := nnSigmoid x1
  let x3 := linearApply net.output x2
  let x4 := nnSoftmax1 x3
  x4

/-- The second `Network` class of the notebook (the `torch.nn.functional`
style), with the same two linear layers. -/
structure NetworkF where
  hidden : LinearLayer
  output : LinearLayer

/-- Forward of the functional `Network` class:
`x = F.sigmoid(self.hidden(x)); x = F.softmax(self.output(x), dim=1)`. -/
noncomputable def NetworkF.forward (net : NetworkF) (x : Mat) : Mat :=
  fSoftmax1 (linearApply net.output (fSigmoid (linearApply net.hidden x)))

/-- Per the spec's forward contract: each (AffineLayer, Activation) stage
pair in order, then the final affine layer with no following activation and
no softmax — the raw score matrix the claim says `forward` returns. -/
noncomputable def specForwardRaw (net : Network) (x : Mat) : Mat :=
  linearApply net.output (nnSigmoid (linearApply net.hidden x))

/-- A concrete one-unit network instance used for concrete evaluations. -/
noncomputable def net0 : Network := ⟨⟨[[1]], [0]⟩, ⟨[[1]], [0]⟩⟩

/-- Modelled from the spec: the value domain the normalizer validates —
a floating-point entry is either a finite real or one of the non-finite
values (+inf, -inf, NaN). The notebook-level softmax body is a TODO stub,
so the normalizer below follows the spec's contract. -/
inductive FloatVal where
  | fin : ℝ → FloatVal
  | posInf : FloatVal
  | negInf : FloatVal
  | nan : FloatVal

/-- Whether a value is finite. -/
def FloatVal.isFinite : FloatVal → Bool
  | .fin _ => true
  | _ => false

/-- The real carried by a finite value (0 on non-finite values; the
normalizer only reads it under the finiteness guard). -/
noncomputable def FloatVal.toR : FloatVal → ℝ
  | .fin r => r
  | _ => 0

/-- Adding the scalar c to a finite entry; non-finite entries are kept. -/
noncomputable def shiftF (c : ℝ) : FloatVal → FloatVal
  | .fin r => .fin (r + c)
  | v => v

/-- Whether every entry of the matrix is finite. -/
def allFinite (x : List (List FloatVal)) : Bool :=
  x.all (fun row => row.all FloatVal.isFinite)

/-- The error the normalizer reports on non-finite input. -/
inductive NormError where
  | dataValidityError : NormError
deriving DecidableEq

/-- Modelled from the spec: `softmax.normalize` — the notebook's `softmax`
body is a TODO stub (`def softmax(x): ## TODO`), so this follows the spec:
validate that every entry is finite (otherwise report DataValidityError and
return no result), then apply the numerically-stable softmax independently
to each row. -/
noncomputable def SoftmaxNormalizer.normalize (x : List (List FloatVal)) :
    Except NormError (List (List ℝ)) :=
  if allFinite x then
    .ok (x.map (fun row => softmaxRow (row.map FloatVal.toR)))
  else
    .error .dataValidityError

/-- The activation kinds of the spec's Activation component. -/
inductive ActivationKind where
  | identity : ActivationKind
  | sigmoid : ActivationKind
  | relu : ActivationKind

/-- Modelled from the spec: AffineLayer parameters — a weight matrix of
shape (F_in, F_out) (one row per input coordinate) and a bias vector of
length F_out; the layer computes `y = xW + b` with row-broadcast bias. -/
structure AffineLayer where
  weight : Mat
  bias : List ℝ

/-- Pointwise sum of two vectors. -/
noncomputable def vecAdd (a b : List ℝ) : List ℝ :=
  List.zipWith (fun x y => x + y) a b

/-- A vector scaled by a constant. -/
noncomputable def scaleVec (c : ℝ) (v : List ℝ) : List ℝ :=
  v.map (fun x => c * x)

/-- One row through the spec's AffineLayer: `x·W + b`, computed as the sum
over input coordinates i of `x_i * W[i]`, accumulated onto the bias. -/
noncomputable def affineRow (l : AffineLayer) (row : List ℝ) : List ℝ :=
  (row.zip l.weight).foldr (fun p acc => vecAdd (scaleVec p.1 p.2) acc) l.bias

/-- The spec's AffineLayer applied to a batch, row by row. -/
noncomputable def affineApply (l : AffineLayer) (x : Mat) : Mat :=
  x.map (affineRow l)

/-- Rectified linear unit. -/
noncomputable def reluR (v : ℝ) : ℝ := max 0 v

/-- Elementwise application of an activation kind to a batch. -/
noncomputable def actApply : ActivationKind → Mat → Mat
  | .identity, x => x
  | .sigmoid, x => x.map (List.map sigmoid)
  | .relu, x => x.map (List.map reluR)

/-- Modelled from the spec: FeedForwardNetwork — an ordered sequence of
(AffineLayer, Activation) stage pairs plus a final AffineLayer with no
following activation. The configurable-network exercise cell of the
notebook is empty, so the component follows the spec. -/
structure FFNetwork where
  stages : List (AffineLayer × ActivationKind)
  final : AffineLayer

/-- Input width of an affine layer (number of weight rows). -/
def layerIn (l : AffineLayer) : Nat := l.weight.length

/-- Output width of an affine layer (length of the bias vector). -/
def layerOut (l : AffineLayer) : Nat := l.bias.length

/-- The network's declared input width F: the input width of its first
affine layer. -/
def declaredIn (net : FFNetwork) : Nat :=
  match net.stages with
  | [] => layerIn net.final
  | (l, _) :: _ => layerIn l

/-- One stage pair applied to the running result: affine map, then
activation. -/
noncomputable def applyStage (x : Mat) (st : AffineLayer × ActivationKind) : Mat :=
  actApply st.2 (affineApply st.1 x)

/-- Raw class scores of the spec network: every stage pair in order, then
the final affine layer. -/
noncomputable def scores (net : FFNetwork) (x : Mat) : Mat :=
  affineApply net.final (net.stages.foldl applyStage x)

/-- The error `forward` reports when the batch width disagrees with the
network's declared input width. -/
inductive FwdError where
  | shapeMismatchError : FwdError
deriving DecidableEq

/-- Modelled from the spec: `network.forward` — checks the precondition
`batch.columns == F` and reports ShapeMismatchError on violation, otherwise
returns the raw score matrix. -/
noncomputable def FFNetwork.forward (net : FFNetwork) (x : Mat) :
    Except FwdError Mat :=
  if x.all (fun row => row.length == declaredIn net) then .ok (scores net x)
  else .error .shapeMismatchError

/-- A concrete one-unit spec network with no hidden stages. -/
noncomputable def ffnet0 : FFNetwork := ⟨[], ⟨[[1]], [0]⟩⟩

/-- Modelled from the spec: one (width, activation-kind) stage
specification handed to network construction, with its input and output
widths. -/
structure StageSpec where
  inWidth : Nat
  outWidth : Nat
  act : ActivationKind

/-- The error construction reports for an inconsistent or empty stage
list. -/
inductive ConfigError where
  | configurationError : ConfigError
deriving DecidableEq

/-- A validated network configuration. -/
structure NetworkCfg where
  stages : List StageSpec

/-- Whether adjacent stages chain: each stage's output width equals the
next stage's input width. -/
def chainOk : List StageSpec → Bool
  | [] => true
  | [_] => true
  | s1 :: s2 :: rest => (s1.outWidth == s2.inWidth) && chainOk (s2 :: rest)

/-- Modelled from the spec: network construction — validates width-chaining
consistency of the ordered stage list and fails with ConfigurationError if
widths are inconsistent or the stage list is empty. -/
def mkNetwork (stages : List StageSpec) : Except ConfigError NetworkCfg :=
  if stages.isEmpty then .error .configurationError
  else if chainOk stages then .ok ⟨stages⟩
  else .error .configurationError

/-! Helper lemmas about folded maxima, sums, and the softmax row. -/

/-- The seed is below a left-fold of max. -/
theorem foldlMax_init_le (l : List ℝ) : ∀ b : ℝ, b ≤ l.foldl max b := by
  induction l with
  | nil => intro b; simp
  | cons a l ih =>
    intro b
    exact le_trans (le_max_left b a) (ih (max b a))

/-- Every member is below a left-fold of max. -/
theorem mem_le_foldlMax (l : List ℝ) : ∀ b v, v ∈ l → v ≤ l.foldl max b := by
  induction l with
  | nil => intro b v hv; cases hv
  | cons a l ih =>
    intro b v hv
    rcases List.mem_cons.mp hv with rfl | h
    · exact le_trans (le_max_right b v) (foldlMax_init_le l (max b v))
    · exact ih (max b a) v h

/-- A left-fold of max is the seed or a member. -/
theorem foldlMax_mem (l : List ℝ) : ∀ b, l.foldl max b = b ∨ l.foldl max b ∈ l := by
  induction l with
  | nil => intro b; left; rfl
  | cons a l ih =>
    intro b
    rcases ih (max b a) with h | h
    · rw [List.foldl_cons, h]
      rcases max_choice b a with h2 | h2
      · left; exact h2
      · right; rw [h2]; exact List.mem_cons_self a l
    · right
      rw [List.foldl_cons]
      exact List.mem_cons_of_mem a h

/-- Every member of a nonempty list is below its maximum. -/
theorem le_maxD {l : List ℝ} {v : ℝ} (hv : v ∈ l) : v ≤ maxD l := by
  cases l with
  | nil => cases hv
  | cons a t =>
    rcases List.mem_cons.mp hv with rfl | h
    · exact foldlMax_init_le t v
    · exact mem_le_foldlMax t a v h

/-- The maximum of a nonempty list is one of its members. -/
theorem maxD_mem {l : List ℝ} (h : l ≠ []) : maxD l ∈ l := by
  cases l with
  | nil => exact absurd rfl h
  | cons a t =>
    rcases foldlMax_mem t a with h2 | h2
    · rw [maxD, h2]; exact List.mem_cons_self a t
    · exact List.mem_cons_of_mem a h2

/-- Max commutes with adding a constant on both sides. -/
theorem max_add_const (a b c : ℝ) : max (a + c) (b + c) = max a b + c := by
  rcases le_total a b with h | h
  · rw [max_eq_right h, max_eq_right (by linarith)]
  · rw [max_eq_left h, max_eq_left (by linarith)]

/-- A left-fold of max over a shifted list is the shifted fold. -/
theorem foldlMax_shift (l : List ℝ) :
    ∀ b c : ℝ, (l.map (fun v => v + c)).foldl max (b + c) = l.foldl max b + c := by
  induction l with
  | nil => intro b c; rfl
  | cons a l ih =>
    intro b c
    simp only [List.map_cons, List.foldl_cons]
    rw [max_add_const, ih (max b a) c]

/-- The maximum of a shifted nonempty list is the shifted maximum. -/
theorem maxD_shift {l : List ℝ} (c : ℝ) (h : l ≠ []) :
    maxD (l.map (fun v => v + c)) = maxD l + c := by
  cases l with
  | nil => exact absurd rfl h
  | cons a t => simpa [maxD] using foldlMax_shift t a c

/-- Sum of a list divided entrywise by a constant. -/
theorem sum_map_div (l : List ℝ) (s : ℝ) :
    (l.map (fun v => v / s)).sum = l.sum / s := by
  induction l with
  | nil => simp
  | cons a l ih => simp [ih, add_div]

/-- Every entry of the exponential row is positive. -/
theorem expRow_pos {r : List ℝ} {v : ℝ} (hv : v ∈ expRow r) : 0 < v := by
  simp only [expRow, List.mem_map] at hv
  obtain ⟨u, _, rfl⟩ := hv
  exact Real.exp_pos _

/-- The exponential row of a nonempty row has positive sum. -/
theorem expRow_sum_pos {r : List ℝ} (h : r ≠ []) : 0 < (expRow r).sum := by
  refine List.sum_pos (expRow r) (fun v hv => expRow_pos hv) ?_
  simp [expRow, h]

/-- A softmax row over a nonempty row sums to exactly 1. -/
theorem softmaxRow_sum_one {r : List ℝ} (h : r ≠ []) : (softmaxRow r).sum = 1 := by
  rw [softmaxRow, sum_map_div]
  exact div_self (ne_of_gt (expRow_sum_pos h))

/-- Every entry of a softmax row lies in [0, 1]. -/
theorem softmaxRow_mem_unit {r : List ℝ} {p : ℝ} (hp : p ∈ softmaxRow r) :
    0 ≤ p ∧ p ≤ 1 := by
  simp only [softmaxRow, List.mem_map] at hp
  obtain ⟨e, he, rfl⟩ := hp
  have hepos : 0 < e := expRow_pos he
  have hrne : r ≠ [] := by
    intro hr
    rw [hr] at he
    simp [expRow] at he
  have hspos : 0 < (expRow r).sum := expRow_sum_pos hrne
  constructor
  · exact div_nonneg (le_of_lt hepos) (le_of_lt hspos)
  · rw [div_le_one hspos]
    exact List.single_le_sum (fun v hv => le_of_lt (expRow_pos hv)) e he

/-- The exponential row is invariant under shifting every entry. -/
theorem expRow_shift (r : List ℝ) (c : ℝ) :
    expRow (r.map (fun v => v + c)) = expRow r := by
  cases r with
  | nil => rfl
  | cons a t =>
    have hne : (a :: t) ≠ [] := by simp
    simp only [expRow, maxD_shift c hne, List.map_map]
    refine List.map_congr_left ?_
    intro v _
    simp only [Function.comp_apply]
    congr 1
    ring

/-- Softmax rows are invariant under shifting every entry by a scalar. -/
theorem softmaxRow_shift (r : List ℝ) (c : ℝ) :
    softmaxRow (r.map (fun v => v + c)) = softmaxRow r := by
  rw [softmaxRow, softmaxRow, expRow_shift]

/-- Folding max over copies of the seed returns the seed. -/
theorem foldlMax_replicate (v : ℝ) : ∀ k, (List.replicate k v).foldl max v = v := by
  intro k
  induction k with
  | zero => rfl
  | succ k ih => simpa [List.replicate_succ] using ih

/-- The maximum of a constant row is that constant. -/
theorem maxD_replicate {C : Nat} (v : ℝ) (hC : 0 < C) :
    maxD (List.replicate C v) = v := by
  cases C with
  | zero => exact absurd hC (by simp)
  | succ k => simpa [List.replicate_succ, maxD] using foldlMax_replicate v k

/-- The exponential row of a constant row is all ones. -/
theorem expRow_replicate {C : Nat} (v : ℝ) (hC : 0 < C) :
    expRow (List.replicate C v) = List.replicate C 1 := by
  simp [expRow, maxD_replicate v hC, List.map_replicate, Real.exp_zero]

/-- A constant row normalizes to the uniform distribution. -/
theorem softmaxRow_replicate {C : Nat} (v : ℝ) (hC : 0 < C) :
    softmaxRow (List.replicate C v) = List.replicate C (1 / (C : ℝ)) := by
  rw [softmaxRow, expRow_replicate v hC]
  have hsum : (List.replicate C (1 : ℝ)).sum = (C : ℝ) := by
    simp [List.sum_replicate, nsmul_eq_mul]
  rw [hsum, List.map_replicate]

/-- Shifting preserves finiteness of a value. -/
theorem isFinite_shiftF (c : ℝ) (v : FloatVal) :
    (shiftF c v).isFinite = v.isFinite := by
  cases v <;> rfl

/-- Shifting every entry preserves matrix finiteness. -/
theorem allFinite_shiftMat (c : ℝ) (x : List (List FloatVal)) :
    allFinite (x.map (fun row => row.map (shiftF c))) = allFinite x := by
  simp [allFinite, List.all_map, Function.comp_def, isFinite_shiftF]

/-- On an all-finite row, shifting then reading reals equals reading reals
then adding the constant. -/
theorem row_toR_shift (c : ℝ) :
    ∀ row : List FloatVal, row.all FloatVal.isFinite = true →
      (row.map (shiftF c)).map FloatVal.toR =
        (row.map FloatVal.toR).map (fun v => v + c) := by
  intro row
  induction row with
  | nil => intro _; rfl
  | cons v t ih =>
    intro hall
    simp only [List.all_cons, Bool.and_eq_true] at hall
    cases v with
    | fin r =>
      simp only [List.map_cons, shiftF, FloatVal.toR, ih hall.2]
    | posInf => simp [FloatVal.isFinite] at hall
    | negInf => simp [FloatVal.isFinite] at hall
    | nan => simp [FloatVal.isFinite] at hall

/-- Activations preserve the number of rows. -/
theorem actApply_length (k : ActivationKind) (x : Mat) :
    (actApply k x).length = x.length := by
  cases k <;> simp [actApply]

/-- The affine map preserves the number of rows. -/
theorem affineApply_length (l : AffineLayer) (x : Mat) :
    (affineApply l x).length = x.length := by
  simp [affineApply]

/-- The stage fold preserves the number of rows. -/
theorem stagesFoldl_length (stages : List (AffineLayer × ActivationKind)) :
    ∀ x : Mat, (stages.foldl applyStage x).length = x.length := by
  induction stages with
  | nil => intro x; rfl
  | cons st stages ih =>
    intro x
    rw [List.foldl_cons, ih]
    simp [applyStage, actApply_length, affineApply_length]

/-- The fold accumulating scaled weight rows onto the bias keeps the bias
length, provided every weight row has the bias length. -/
theorem foldr_vecAdd_length (n : Nat) :
    ∀ (ps : List (ℝ × List ℝ)) (b : List ℝ), b.length = n →
      (∀ p ∈ ps, (p.2).length = n) →
      ((ps.foldr (fun p acc => vecAdd (scaleVec p.1 p.2) acc) b).length = n) := by
  intro ps
  induction ps with
  | nil => intro b hb _; exact hb
  | cons p ps ih =>
    intro b hb hp
    have htail := ih b hb (fun q hq => hp q (List.mem_cons_of_mem p hq))
    have hhead : (p.2).length = n := hp p (List.mem_cons_self p ps)
    simp only [vecAdd, scaleVec] at htail
    simp only [List.foldr_cons, vecAdd, List.length_zipWith, scaleVec,
      List.length_map, hhead, htail, min_self]

/-- Rows out of a well-formed affine layer have the bias length. -/
theorem affineRow_length {l : AffineLayer}
    (hWF : ∀ w ∈ l.weight, w.length = l.bias.length) (row : List ℝ) :
    (affineRow l row).length = l.bias.length := by
  refine foldr_vecAdd_length l.bias.length (row.zip l.weight) l.bias rfl ?_
  intro p hp
  exact hWF p.2 (List.of_mem_zip hp).2

/-- Whether the chain test matches pairwise chaining of adjacent stages. -/
theorem chainOk_iff :
    ∀ l : List StageSpec,
      chainOk l = true ↔ List.Chain' (fun a b => a.outWidth = b.inWidth) l
  | [] => by simp [chainOk]
  | [s] => by simp [chainOk]
  | s1 :: s2 :: rest => by
    rw [chainOk, List.chain'_cons, Bool.and_eq_true, beq_iff_eq,
      chainOk_iff (s2 :: rest)]

/-- Sigmoid at zero is one half. -/
theorem sigmoid_zero : sigmoid 0 = 1 / 2 := by
  rw [sigmoid, neg_zero, Real.exp_zero]
  norm_num

/-- Softmax of a single-entry row is the point distribution. -/
theorem softmaxRow_single (a : ℝ) : softmaxRow [a] = [1] := by
  simp [softmaxRow, expRow, maxD, sub_self, Real.exp_zero]

/-- The module-network forward is the softmax of the stage composition. -/
theorem forward_eq_softmax_raw (net : Network) (x : Mat) :
    Network.forward net x = nnSoftmax1 (specForwardRaw net x) := rfl

/-- The raw stage composition of the one-unit network on the zero batch. -/
theorem net0_raw_eval : specForwardRaw net0 [[0]] = [[1 / 2]] := by
  simp [specForwardRaw, net0, linearApply, nnSigmoid, dotp, sigmoid_zero]

/-- The forward pass of the one-unit network on the zero batch. -/
theorem net0_forward_eval : Network.forward net0 [[0]] = [[1]] := by
  rw [forward_eq_softmax_raw, net0_raw_eval]
  simp [nnSoftmax1, softmaxRow_single]

/-- Claim C1 (counterexample): the source's `Network.forward` does not
return the raw score matrix — on the one-unit network and the zero batch,
forward yields [[1]] while the stage composition without softmax yields
[[1/2]], because forward applies `self.softmax` as its last step. -/
theorem c1_counterexample :
    Network.forward net0 [[0]] ≠ specForwardRaw net0 [[0]] := by
  rw [net0_forward_eval, net0_raw_eval]
  intro h
  have h1 : (1 : ℝ) = 1 / 2 := by
    have h2 := List.head_eq_of_cons_eq h
    exact List.head_eq_of_cons_eq h2
  norm_num at h1

/-- Claim C1 (amended): `Network.forward` applies each stage pair in order
(hidden affine layer, then the sigmoid module), then the final affine
layer, then the `nn.Softmax(dim=1)` module; it returns the row-normalized
probability matrix, not the raw score matrix — every nonempty returned row
sums to 1. -/
theorem c1_amended (net : Network) (x : Mat) (row : List ℝ)
    (hmem : row ∈ Network.forward net x) (hne : row ≠ []) :
    Network.forward net x = nnSoftmax1 (specForwardRaw net x) ∧ row.sum = 1 := by
  refine ⟨rfl, ?_⟩
  rw [forward_eq_softmax_raw] at hmem
  simp only [nnSoftmax1, List.mem_map] at hmem
  obtain ⟨r0, _, rfl⟩ := hmem
  refine softmaxRow_sum_one ?_
  intro h0
  exact hne (by simp [h0, softmaxRow, expRow])

/-- Claim C1 (witness): the amended statement at the one-unit network on
the zero batch, whose forward output row is [1]. -/
theorem c1_witness :
    [(1 : ℝ)] ∈ Network.forward net0 [[0]] ∧ [(1 : ℝ)] ≠ [] ∧
      (Network.forward net0 [[0]] = nnSoftmax1 (specForwardRaw net0 [[0]]) ∧
        [(1 : ℝ)].sum = 1) := by
  have hmem : [(1 : ℝ)] ∈ Network.forward net0 [[0]] := by
    rw [net0_forward_eval]
    exact List.mem_singleton_self _
  exact ⟨hmem, by simp, c1_amended net0 [[0]] [1] hmem (by simp)⟩

/-- Claim C9: forward evaluation is deterministic — with identical
parameters and identical input batches, two invocations of
`Network.forward` produce identical output (the embedding of forward is a
pure function of parameters and input; no randomness is consumed). -/
theorem c9_forward_deterministic (net net' : Network) (x x' : Mat)
    (hnet : net = net') (hx : x = x') :
    Network.forward net x = Network.forward net' x' := by
  rw [hnet, hx]

/-- Claim C9 (witness): determinism at the one-unit network on the zero
batch. -/
theorem c9_witness :
    net0 = net0 ∧ ([[(0 : ℝ)]] : Mat) = [[(0 : ℝ)]] ∧
      Network.forward net0 [[0]] = Network.forward net0 [[0]] :=
  ⟨rfl, rfl, c9_forward_deterministic net0 net0 [[0]] [[0]] rfl rfl⟩

/-- Claim C10: the two `Network` definitions of the notebook — the one
applying the stored `nn.Sigmoid`/`nn.Softmax(dim=1)` module objects and the
one calling `F.sigmoid`/`F.softmax(-, dim=1)` directly — compute the same
function for every identical parameter set and input batch. -/
theorem c10_module_functional_agree (h o : LinearLayer) (x : Mat) :
    Network.forward ⟨h, o⟩ x = NetworkF.forward ⟨h, o⟩ x := rfl

/-- Claim C2: on an all-finite matrix, the normalizer succeeds and entry
(i, j) of the result is `e^(x i j - m_i) / sum_k e^(x i k - m_i)` where
`m_i` is the row maximum: it bounds every row entry from above and is
itself attained by a row entry. The implementation does subtract the
per-row maximum before exponentiating. -/
theorem c2_normalize_formula (x : List (List FloatVal)) (i j : Nat)
    (xi : List FloatVal) (u : FloatVal)
    (hfin : allFinite x = true) (hi : x[i]? = some xi) (hj : xi[j]? = some u) :
    ∃ P prow, SoftmaxNormalizer.normalize x = .ok P ∧ P[i]? = some prow ∧
      prow[j]? = some (Real.exp (u.toR - maxD (xi.map FloatVal.toR)) /
        ((xi.map FloatVal.toR).map
          (fun v => Real.exp (v - maxD (xi.map FloatVal.toR)))).sum) ∧
      (∀ v ∈ xi.map FloatVal.toR, v ≤ maxD (xi.map FloatVal.toR)) ∧
      maxD (xi.map FloatVal.toR) ∈ xi.map FloatVal.toR := by
  have hne : xi ≠ [] := by
    intro h0
    rw [h0] at hj
    simp at hj
  refine ⟨x.map (fun row => softmaxRow (row.map FloatVal.toR)),
    softmaxRow (xi.map FloatVal.toR), ?_, ?_, ?_, ?_, ?_⟩
  · rw [SoftmaxNormalizer.normalize, if_pos hfin]
  · rw [List.getElem?_map, hi]
    rfl
  · have hjr : (xi.map FloatVal.toR)[j]? = some u.toR := by
      rw [List.getElem?_map, hj]
      rfl
    rw [softmaxRow, expRow, List.getElem?_map, List.getElem?_map, hjr]
    rfl
  · intro v hv
    exact le_maxD hv
  · refine maxD_mem ?_
    simp [hne]

/-- Claim C2 (witness): the formula at the one-row, one-entry matrix
[[0]]. -/
theorem c2_witness :
    allFinite [[FloatVal.fin 0]] = true ∧
      ([[FloatVal.fin 0]] : List (List FloatVal))[0]? = some [FloatVal.fin 0] ∧
      ([FloatVal.fin 0] : List FloatVal)[0]? = some (FloatVal.fin 0) ∧
      ∃ P prow, SoftmaxNormalizer.normalize [[FloatVal.fin 0]] = .ok P ∧
        P[0]? = some prow ∧
        prow[0]? = some (Real.exp ((FloatVal.fin 0).toR -
            maxD ([FloatVal.fin 0].map FloatVal.toR)) /
          (([FloatVal.fin 0].map FloatVal.toR).map
            (fun v => Real.exp (v -
              maxD ([FloatVal.fin 0].map FloatVal.toR)))).sum) ∧
        (∀ v ∈ [FloatVal.fin 0].map FloatVal.toR,
          v ≤ maxD ([FloatVal.fin 0].map FloatVal.toR)) ∧
        maxD ([FloatVal.fin 0].map FloatVal.toR) ∈
          [FloatVal.fin 0].map FloatVal.toR :=
  ⟨rfl, rfl, rfl,
    c2_normalize_formula [[FloatVal.fin 0]] 0 0 [FloatVal.fin 0]
      (FloatVal.fin 0) rfl rfl rfl⟩

/-- Claim C3: on an all-finite (N, C) matrix with C at least 1, the
normalizer succeeds, every output row sums to 1 (well within the 1e-6
absolute tolerance — in exact arithmetic the sum is exactly 1), and every
entry lies in [0, 1]. -/
theorem c3_rows_sum_one (x : List (List FloatVal)) (C : Nat)
    (hC : 0 < C) (hrows : ∀ row ∈ x, row.length = C)
    (hfin : allFinite x = true) :
    ∃ P, SoftmaxNormalizer.normalize x = .ok P ∧
      ∀ row ∈ P, |row.sum - 1| ≤ 1 / 1000000 ∧ ∀ p ∈ row, 0 ≤ p ∧ p ≤ 1 := by
  refine ⟨x.map (fun row => softmaxRow (row.map FloatVal.toR)), ?_, ?_⟩
  · rw [SoftmaxNormalizer.normalize, if_pos hfin]
  · intro row hrow
    simp only [List.mem_map] at hrow
    obtain ⟨r0, hr0, rfl⟩ := hrow
    have hlen : (r0.map FloatVal.toR).length = C := by
      simp [hrows r0 hr0]
    have hne : r0.map FloatVal.toR ≠ [] := by
      intro h0
      rw [h0] at hlen
      simp at hlen
      omega
    constructor
    · rw [softmaxRow_sum_one hne]
      norm_num
    · intro p hp
      exact softmaxRow_mem_unit hp

/-- Claim C3 (witness): the row property at the 1-by-2 matrix [[0, 1]]. -/
theorem c3_witness :
    0 < 2 ∧
      (∀ row ∈ ([[FloatVal.fin 0, FloatVal.fin 1]] : List (List FloatVal)),
        row.length = 2) ∧
      allFinite [[FloatVal.fin 0, FloatVal.fin 1]] = true ∧
      ∃ P, SoftmaxNormalizer.normalize [[FloatVal.fin 0, FloatVal.fin 1]] =
          .ok P ∧
        ∀ row ∈ P, |row.sum - 1| ≤ 1 / 1000000 ∧ ∀ p ∈ row, 0 ≤ p ∧ p ≤ 1 :=
  ⟨by norm_num, by simp,  rfl,
    c3_rows_sum_one [[FloatVal.fin 0, FloatVal.fin 1]] 2 (by norm_num)
      (by simp) rfl⟩

/-- Claim C4: on a matrix containing at least one non-finite entry, the
normalizer reports DataValidityError and returns no result — in particular
it never returns an ok value in place of the error. -/
theorem c4_nonfinite_rejected (x : List (List FloatVal))
    (hx : ∃ row ∈ x, ∃ v ∈ row, v.isFinite = false) :
    SoftmaxNormalizer.normalize x = .error .dataValidityError ∧
      ∀ P, SoftmaxNormalizer.normalize x ≠ .ok P := by
  have hfin : allFinite x = false := by
    obtain ⟨row, hrow, v, hv, hvf⟩ := hx
    cases hall : allFinite x with
    | false => rfl
    | true =>
      exfalso
      rw [allFinite, List.all_eq_true] at hall
      have h1 := hall row hrow
      rw [List.all_eq_true] at h1
      have h2 := h1 v hv
      rw [hvf] at h2
      exact Bool.false_ne_true h2
  have herr : SoftmaxNormalizer.normalize x = .error .dataValidityError := by
    rw [SoftmaxNormalizer.normalize, if_neg (by simp [hfin])]
  refine ⟨herr, fun P hP => ?_⟩
  rw [herr] at hP
  cases hP

/-- Claim C4 (witness): rejection of the matrix [[0, +inf]]. -/
theorem c4_witness :
    (∃ row ∈ ([[FloatVal.fin 0, FloatVal.posInf]] : List (List FloatVal)),
      ∃ v ∈ row, v.isFinite = false) ∧
      SoftmaxNormalizer.normalize [[FloatVal.fin 0, FloatVal.posInf]] =
        .error .dataValidityError ∧
      ∀ P, SoftmaxNormalizer.normalize [[FloatVal.fin 0, FloatVal.posInf]] ≠
        .ok P := by
  have hx : ∃ row ∈ ([[FloatVal.fin 0, FloatVal.posInf]] :
      List (List FloatVal)), ∃ v ∈ row, v.isFinite = false :=
    ⟨[FloatVal.fin 0, FloatVal.posInf], by simp, FloatVal.posInf, by simp, rfl⟩
  exact ⟨hx, c4_nonfinite_rejected _ hx⟩

/-- Claim C5: network construction validates the stage-width chain —
construction succeeds exactly on nonempty stage lists whose adjacent
stages chain (each output width equals the next input width), and reports
ConfigurationError exactly when the list is empty or some adjacent pair
mismatches. -/
theorem c5_construction_validates (stages : List StageSpec) :
    ((∃ cfg, mkNetwork stages = .ok cfg) ↔
      stages ≠ [] ∧ List.Chain' (fun a b => a.outWidth = b.inWidth) stages) ∧
    (mkNetwork stages = .error .configurationError ↔
      stages = [] ∨
        ¬ List.Chain' (fun a b => a.outWidth = b.inWidth) stages) := by
  have hiff := chainOk_iff stages
  unfold mkNetwork
  by_cases h1 : stages.isEmpty
  · have hnil : stages = [] := by
      cases stages with
      | nil => rfl
      | cons s t => simp [List.isEmpty] at h1
    rw [if_pos h1]
    constructor
    · constructor
      · rintro ⟨cfg, hcfg⟩
        cases hcfg
      · rintro ⟨hne, _⟩
        exact absurd hnil hne
    · constructor
      · intro _
        left
        exact hnil
      · intro _
        rfl
  · have hne : stages ≠ [] := by
      intro h0
      rw [h0] at h1
      exact h1 rfl
    rw [if_neg h1]
    by_cases h2 : chainOk stages = true
    · rw [if_pos h2]
      constructor
      · constructor
        · intro _
          exact ⟨hne, hiff.mp h2⟩
        · intro _
          exact ⟨⟨stages⟩, rfl⟩
      · constructor
        · intro hcontra
          cases hcontra
        · rintro (h3 | h3)
          · exact absurd h3 hne
          · exact absurd (hiff.mp h2) h3
    · rw [if_neg h2]
      have hnc : ¬ List.Chain' (fun a b => a.outWidth = b.inWidth) stages :=
        fun hc => h2 (hiff.mpr hc)
      constructor
      · constructor
        · rintro ⟨cfg, hcfg⟩
          cases hcfg
        · rintro ⟨_, hc⟩
          exact absurd hc hnc
      · constructor
        · intro _
          right
          exact hnc
        · intro _
          rfl

/-- Claim C6: softmax is shift-invariant — adding a scalar c to every
entry of a row leaves its softmax row unchanged, and shifting every finite
entry of the input matrix leaves the normalizer's result unchanged
(including the error behavior, since shifting preserves finiteness). -/
theorem c6_shift_invariance (r : List ℝ) (c : ℝ) (x : List (List FloatVal)) :
    softmaxRow (r.map (fun v => v + c)) = softmaxRow r ∧
      SoftmaxNormalizer.normalize (x.map (fun row => row.map (shiftF c))) =
        SoftmaxNormalizer.normalize x := by
  refine ⟨softmaxRow_shift r c, ?_⟩
  by_cases hfin : allFinite x = true
  · have hfin2 : allFinite (x.map (fun row => row.map (shiftF c))) = true := by
      rw [allFinite_shiftMat]
      exact hfin
    rw [SoftmaxNormalizer.normalize, SoftmaxNormalizer.normalize,
      if_pos hfin2, if_pos hfin]
    congr 1
    rw [List.map_map]
    refine List.map_congr_left ?_
    intro row hrow
    simp only [Function.comp_apply]
    have hrowfin : row.all FloatVal.isFinite = true := by
      rw [allFinite, List.all_eq_true] at hfin
      exact hfin row hrow
    rw [row_toR_shift c row hrowfin, softmaxRow_shift]
  · have hfin2 : ¬ allFinite (x.map (fun row => row.map (shiftF c))) = true := by
      rw [allFinite_shiftMat]
      exact hfin
    rw [SoftmaxNormalizer.normalize, SoftmaxNormalizer.normalize,
      if_neg hfin2, if_neg hfin]

/-- Claim C7: for a network whose final layer is well-formed, forward on a
batch whose rows all have the declared input width F returns a matrix with
the same number of rows and every row of the declared output width C
(the final layer's bias length), and forward on a nonempty batch whose
rows have some other width reports ShapeMismatchError. -/
theorem c7_shape (net : FFNetwork) (x : Mat)
    (hWF : ∀ w ∈ net.final.weight, w.length = net.final.bias.length) :
    ((∀ row ∈ x, row.length = declaredIn net) →
      ∃ y, FFNetwork.forward net x = .ok y ∧ y.length = x.length ∧
        ∀ row ∈ y, row.length = layerOut net.final) ∧
    (∀ F' : Nat, (∀ row ∈ x, row.length = F') → F' ≠ declaredIn net →
      x ≠ [] → FFNetwork.forward net x = .error .shapeMismatchError) := by
  constructor
  · intro hcols
    have hcond : x.all (fun row => row.length == declaredIn net) = true := by
      rw [List.all_eq_true]
      intro row hrow
      simp [hcols row hrow]
    refine ⟨scores net x, ?_, ?_, ?_⟩
    · rw [FFNetwork.forward, if_pos hcond]
    · simp [scores, affineApply_length, stagesFoldl_length]
    · intro row hrow
      simp only [scores, affineApply, List.mem_map] at hrow
      obtain ⟨r0, _, rfl⟩ := hrow
      exact affineRow_length hWF r0
  · intro F' hcols hF hne
    cases x with
    | nil => exact absurd rfl hne
    | cons r0 t =>
      have h0 : r0.length = F' := hcols r0 (List.mem_cons_self r0 t)
      have hcond :
          (r0 :: t).all (fun row => row.length == declaredIn net) = false := by
        simp only [List.all_cons, Bool.and_eq_false_iff]
        left
        simp [h0, hF]
      rw [FFNetwork.forward, if_neg (by simp [hcond])]

/-- Claim C7 (witness): the shape invariant and the shape-mismatch
rejection at the one-unit stage-free network, on the batches [[0]] and
[[0, 0]]. -/
theorem c7_witness :
    (∀ w ∈ ffnet0.final.weight, w.length = ffnet0.final.bias.length) ∧
      (∀ row ∈ ([[0]] : Mat), row.length = declaredIn ffnet0) ∧
      (∃ y, FFNetwork.forward ffnet0 [[0]] = .ok y ∧ y.length = 1 ∧
        ∀ row ∈ y, row.length = layerOut ffnet0.final) ∧
      FFNetwork.forward ffnet0 [[0, 0]] = .error .shapeMismatchError := by
  have hWF : ∀ w ∈ ffnet0.final.weight, w.length = ffnet0.final.bias.length :=
    by simp [ffnet0]
  have hcols : ∀ row ∈ ([[0]] : Mat), row.length = declaredIn ffnet0 := by
    simp [ffnet0, declaredIn, layerIn]
  refine ⟨hWF, hcols, (c7_shape ffnet0 [[0]] hWF).1 hcols, ?_⟩
  refine (c7_shape ffnet0 [[0, 0]] hWF).2 2 (by simp) ?_ (by simp)
  simp [ffnet0, declaredIn, layerIn]

/-- Claim C8: a row whose C entries are all equal normalizes to the
uniform distribution — every one of its C output entries equals 1/C. -/
theorem c8_uniform_row (x : List (List FloatVal)) (i C : Nat) (v : ℝ)
    (hfin : allFinite x = true) (hC : 0 < C)
    (hi : x[i]? = some (List.replicate C (FloatVal.fin v))) :
    ∃ P, SoftmaxNormalizer.normalize x = .ok P ∧
      P[i]? = some (List.replicate C (1 / (C : ℝ))) := by
  refine ⟨x.map (fun row => softmaxRow (row.map FloatVal.toR)), ?_, ?_⟩
  · rw [SoftmaxNormalizer.normalize, if_pos hfin]
  · rw [List.getElem?_map, hi]
    have hrow : (List.replicate C (FloatVal.fin v)).map FloatVal.toR =
        List.replicate C v := by
      rw [List.map_replicate]
      rfl
    show some (softmaxRow ((List.replicate C (FloatVal.fin v)).map
      FloatVal.toR)) = some (List.replicate C (1 / (C : ℝ)))
    rw [hrow, softmaxRow_replicate v hC]

/-- Claim C8 (witness): the constant row [5, 5] normalizes to [1/2, 1/2]. -/
theorem c8_witness :
    allFinite [[FloatVal.fin 5, FloatVal.fin 5]] = true ∧ 0 < 2 ∧
      ([[FloatVal.fin 5, FloatVal.fin 5]] : List (List FloatVal))[0]? =
        some (List.replicate 2 (FloatVal.fin 5)) ∧
      ∃ P, SoftmaxNormalizer.normalize [[FloatVal.fin 5, FloatVal.fin 5]] =
          .ok P ∧
        P[0]? = some (List.replicate 2 (1 / (2 : ℝ))) :=
  ⟨rfl, by norm_num, rfl,
    c8_uniform_row [[FloatVal.fin 5, FloatVal.fin 5]] 0 2 5 rfl
      (by norm_num) rfl⟩
